import Mathlib

/-!
Verification of the code-block preservation pipeline of
`scripts/compress_prompt.py`.

Text is modelled as `List Char`.  `extract_code_blocks` embeds the
behaviour of the Python regex

  `^( *BTBTBT[a-z ]*)\n((?:(?!^BTBTBT).)*?)\n( *BTBTBT)`    (BT = backtick)

run by `re.sub` with `re.DOTALL | re.MULTILINE`, replacing every match by
the marker `" [CODEBLOCK] "`.  The regex semantics are line based:

* a match starts at a line consisting of optional spaces, three backticks
  and a tag made of lowercase letters and spaces running to the newline;
* the match fails when the immediately following line starts with three
  backticks in column zero (the negative lookahead blocks every content
  character, and an empty content cannot be closed there because the
  closing part of the pattern must consume a newline first);
* otherwise the match extends to the first later line (at least two lines
  below the opening) that starts with optional spaces followed by three
  backticks, consuming only the spaces and those three backticks and
  leaving the rest of that line in place;
* scanning resumes after the consumed part of the closing line, so the
  next match can start at the next line at the earliest.

`reinsert_code_blocks` embeds the Python loop that, for every stored
block, tries four literal marker patterns in priority order, substitutes
the block for the first occurrence of the first pattern present anywhere
in the current text (the Python doubles the backslashes of the block
before `re.sub`, so the net replacement is the block verbatim), and
appends `"\n\n" ++ block` at the end when no pattern occurs.

`runPipeline` embeds the orchestration of `compress_prompt` and `main`:
the unavailable-engine abort (the failing import happens before `main`
runs), the missing-input abort, the abort when the engine raises, and the
fact that the output text exists only in the success branch, mirroring
that the Python writes the output file only after extraction, compression
and reinsertion have all succeeded.  The statistics mirror the guarded
ratio computation `a / b if b > 0 else 0`, with Python division embedded
as an `Option` that is `none` on a zero denominator.
-/

abbrev Text := List Char

def str (s : String) : Text := s.toList

/-- Split a text at newline characters; a trailing newline yields a final
empty line, and the empty text is the single empty line. -/
def splitOnNl : Text → List Text
  | [] => [[]]
  | c :: cs =>
    if c = '\n' then [] :: splitOnNl cs
    else
      match splitOnNl cs with
      | [] => [[c]]
      | l :: ls => (c :: l) :: ls

/-- Join lines with single newline separators (inverse of `splitOnNl`). -/
def joinNl : List Text → Text
  | [] => []
  | [l] => l
  | l :: ls => l ++ '\n' :: joinNl ls

/-- Boolean test that the first list starts the second one. -/
def leadsWith : Text → Text → Bool
  | [], _ => true
  | _ :: _, [] => false
  | p :: ps, c :: cs => p = c && leadsWith ps cs

/-- Boolean substring occurrence test. -/
def containsSub (p : Text) : Text → Bool
  | [] => leadsWith p []
  | c :: cs => leadsWith p (c :: cs) || containsSub p cs

/-- Replace the first occurrence of `p` by `r` (identity when `p` does not
occur), the behaviour of `re.sub(pattern, repl, text, count=1)` on a
literal pattern. -/
def replaceFirst (p r : Text) : Text → Text
  | [] => []
  | c :: cs =>
    if leadsWith p (c :: cs) then r ++ (c :: cs).drop p.length
    else c :: replaceFirst p r cs

def ticks : Text := str "```"

def codeMarker : Text := str " [CODEBLOCK] "

def mark1 : Text := str "[CODEBLOCK]"

def mark2 : Text := str "[ CODEBLOCK ]"

def mark3 : Text := str "CODEBLOCK"

def mark4 : Text := str "[ CODE BLOCK ]"

/-- Characters allowed in a language tag by the pattern `[a-z ]*`. -/
def goodTagChar (c : Char) : Bool := (('a' ≤ c) && (c ≤ 'z')) || c = ' '

/-- A line that can open a block: optional spaces, three backticks, then
only tag characters up to the end of the line. -/
def isOpenLine (l : Text) : Bool :=
  let r := l.dropWhile (fun c => c = ' ')
  leadsWith ticks r && (r.drop 3).all goodTagChar

/-- A line starting with three backticks in column zero, the shape the
negative lookahead `(?!^BTBTBT)` forbids inside the content. -/
def startsTicks (l : Text) : Bool := leadsWith ticks l

/-- A line that can close a block: optional spaces then three backticks.
Returns the consumed part (spaces and backticks) and the untouched rest
of the line. -/
def closeSplit (l : Text) : Option (Text × Text) :=
  let r := l.dropWhile (fun c => c = ' ')
  if leadsWith ticks r then some (l.takeWhile (fun c => c = ' ') ++ ticks, r.drop 3)
  else none

/-- Concatenate lines, terminating every line with a newline. -/
def linesNl (ls : List Text) : Text := ls.foldr (fun a r => a ++ '\n' :: r) []

/-- Line scanner for the extraction regex.  The state is `none` while
looking for an opening line and `some (op, acc)` while inside a candidate
block with opening line `op` and reversed content lines `acc`.  A
candidate that never finds a closing line is flushed back as plain lines,
matching the failed regex match. -/
def extractLoop : Option (Text × List Text) → List Text → List Text × List Text
  | none, [] => ([], [])
  | none, [l] => ([l], [])
  | none, l :: l1 :: ls =>
    if isOpenLine l && !startsTicks l1 then extractLoop (some (l, [l1])) ls
    else
      let (o, s) := extractLoop none (l1 :: ls)
      (l :: o, s)
  | some (op, acc), [] => (op :: acc.reverse, [])
  | some (op, acc), l :: ls =>
    match closeSplit l with
    | some (st, rest) =>
      let (o, s) := extractLoop none ls
      ((codeMarker ++ rest) :: o, (op ++ '\n' :: (linesNl acc.reverse ++ st)) :: s)
    | none => extractLoop (some (op, l :: acc)) ls

/-- Embedding of `extract_code_blocks`: returns the rewritten text and
the list of extracted blocks in order of occurrence. -/
def extract_code_blocks (t : Text) : Text × List Text :=
  let (o, s) := extractLoop none (splitOnNl t)
  (joinNl o, s)

/-- One iteration of the reinsertion loop: try the four marker patterns
in priority order, replace the first occurrence of the first pattern
present, otherwise append the block after a blank line. -/
def reinsertOne (t b : Text) : Text :=
  if containsSub mark1 t then replaceFirst mark1 b t
  else if containsSub mark2 t then replaceFirst mark2 b t
  else if containsSub mark3 t then replaceFirst mark3 b t
  else if containsSub mark4 t then replaceFirst mark4 b t
  else t ++ str "\n\n" ++ b

/-- Embedding of `reinsert_code_blocks`. -/
def reinsert_code_blocks (t : Text) (bs : List Text) : Text :=
  bs.foldl reinsertOne t

/-- Failure modes of the pipeline: `llmlingua` not importable, input file
absent, or the compression engine raising during inference. -/
inductive PipeError where
  | engineUnavailable
  | inputNotFound
  | engineFailure
deriving DecidableEq

/-- Environment of one pipeline invocation: whether the engine library is
importable, the content of the input file when it exists, and the engine
as a black box that may fail on any input. -/
structure Env where
  engineAvailable : Bool
  inputFile : Option Text
  engine : Text → Option Text

/-- Statistics reported by `compress_prompt`; the overall compression
value is `none` exactly when the Python expression would divide by zero. -/
structure Stats where
  originalLength : Nat
  compressedLength : Nat
  overallCompression : Option Rat
  codeBlocksPreserved : Nat
deriving DecidableEq

/-- Python division, `none` on a zero denominator. -/
def pyDivQ (a b : Nat) : Option Rat :=
  if b = 0 then none else some ((a : Rat) / (b : Rat))

/-- The guarded statistic
`original_length / compressed_length if compressed_length > 0 else 0`. -/
def compressionStat (origLen finalLen : Nat) : Option Rat :=
  if 0 < finalLen then pyDivQ origLen finalLen else some 0

/-- Text handed to the engine: the rewritten text when code preservation
is on, the raw input otherwise. -/
def pipelineRewritten (p : Bool) (t : Text) : Text :=
  if p then (extract_code_blocks t).1 else t

/-- Blocks stored by the pipeline: extracted when preservation is on,
empty otherwise. -/
def pipelineSpans (p : Bool) (t : Text) : List Text :=
  if p then (extract_code_blocks t).2 else []

/-- Text written to the output file: the compressed text, with blocks
reinserted when preservation is on and at least one block was stored. -/
def finalText (p : Bool) (compressed : Text) (spans : List Text) : Text :=
  if p && !spans.isEmpty then reinsert_code_blocks compressed spans else compressed

/-- Statistics assembled by `compress_prompt`. -/
def mkStats (orig fin : Text) (spans : List Text) (p : Bool) : Stats :=
  ⟨orig.length, fin.length, compressionStat orig.length fin.length,
   if p then spans.length else 0⟩

/-- Embedding of the orchestration in `compress_prompt` and `main`: the
checks happen in the order of the Python control flow (import failure
before `main`, then the input-existence check, then the engine call
guarded by the try block), and the written output text exists only in the
success value, mirroring that the file is written only after extraction,
compression and reinsertion all succeeded. -/
def runPipeline (env : Env) (p : Bool) : Except PipeError (Text × Stats) :=
  if env.engineAvailable = false then .error .engineUnavailable
  else
    match env.inputFile with
    | none => .error .inputNotFound
    | some orig =>
      match env.engine (pipelineRewritten p orig) with
      | none => .error .engineFailure
      | some compressed =>
        let fin := finalText p compressed (pipelineSpans p orig)
        .ok (fin, mkStats orig fin (pipelineSpans p orig) p)

/-- Interleaving `t0 ++ x1 ++ t1 ++ ... ++ xn ++ tn` of separator texts
with the items of the pair list. -/
def plugged (t0 : Text) : List (Text × Text) → Text
  | [] => t0
  | (x, t) :: rest => t0 ++ x ++ plugged t rest

/-- Tail appends performed by the reinsertion fallback. -/
def appendAll (t : Text) (bs : List Text) : Text :=
  bs.foldl (fun acc b => acc ++ str "\n\n" ++ b) t

/-- A pattern none of whose nonempty proper prefixes is also a suffix;
such a pattern cannot straddle the boundary between a pattern-free text
and an adjacent explicit occurrence. -/
def borderFree (p : Text) : Prop :=
  ∀ d, d < p.length → 0 < d → p.take (p.length - d) ≠ p.drop d

/-- Lines a scanner state would flush back on end of input. -/
def stateLines : Option (Text × List Text) → List Text
  | none => []
  | some (op, acc) => op :: acc.reverse

/-- Number of lines of a text that could close a fenced block. -/
def countClose (ls : List Text) : Nat :=
  (ls.filter (fun l => (closeSplit l).isSome)).length

/-- C1 input scenario from the specification. -/
def c1Input : Text := str "A\n```py\ncode1\n```\nB\n```py\ncode2\n```\nC"

/-- C2 counterexample document: the first block's body is itself the
literal marker token. -/
def c2Input : Text := str "```\n[CODEBLOCK]\n```\n\n```\nx\n```\n"

/-- C1: the claim asserts that reinserting into the unchanged rewritten
text restores the original input exactly; it does not, because the
marker is inserted as `" [CODEBLOCK] "` with surrounding spaces while the
reinsertion replaces only the bracketed token, leaving one extra space on
each side of every block. -/
theorem c1_cex :
    reinsert_code_blocks (extract_code_blocks c1Input).1 (extract_code_blocks c1Input).2
      ≠ c1Input := by decide

/-- C1 (amended): extraction yields exactly the two expected spans and
the rewritten text `"A\n [CODEBLOCK] \nB\n [CODEBLOCK] \nC"`; reinserting
them into the unchanged rewritten text yields the original input with one
extra space inserted on each side of each code block. -/
theorem c1_round_trip :
    extract_code_blocks c1Input
      = (str "A\n [CODEBLOCK] \nB\n [CODEBLOCK] \nC",
         [str "```py\ncode1\n```", str "```py\ncode2\n```"]) ∧
    reinsert_code_blocks (str "A\n [CODEBLOCK] \nB\n [CODEBLOCK] \nC")
        [str "```py\ncode1\n```", str "```py\ncode2\n```"]
      = str "A\n ```py\ncode1\n``` \nB\n ```py\ncode2\n``` \nC" := by
  constructor <;> decide

/-- The line splitter never returns an empty list of lines. -/
theorem splitOnNl_ne_nil (t : Text) : splitOnNl t ≠ [] := by
  cases t with
  | nil => simp [splitOnNl]
  | cons c cs =>
    simp only [splitOnNl]
    split
    · simp
    · split <;> simp

/-- Joining the split lines recovers the text. -/
theorem joinNl_splitOnNl (t : Text) : joinNl (splitOnNl t) = t := by
  induction t with
  | nil => rfl
  | cons c cs ih =>
    simp only [splitOnNl]
    split
    · rename_i hc
      rcases hs : splitOnNl cs with _ | ⟨l, ls⟩
      · exact absurd hs (splitOnNl_ne_nil cs)
      · rw [hs] at ih
        subst hc
        simpa [joinNl] using ih
    · rcases hs : splitOnNl cs with _ | ⟨l, ls⟩
      · exact absurd hs (splitOnNl_ne_nil cs)
      · rw [hs] at ih
        cases ls with
        | nil => simpa [joinNl] using congrArg (c :: ·) ih
        | cons l2 ls2 => simpa [joinNl] using congrArg (c :: ·) ih

/-- A text without newline characters is a single line. -/
theorem splitOnNl_no_nl (t : Text) (h : '\n' ∉ t) : splitOnNl t = [t] := by
  induction t with
  | nil => rfl
  | cons c cs ih =>
    simp only [List.mem_cons, not_or] at h
    simp only [splitOnNl]
    rw [if_neg (fun hc => h.1 hc.symm), ih h.2]

/-- Splitting distributes over an explicit newline. -/
theorem splitOnNl_append_nl (a b : Text) :
    splitOnNl (a ++ '\n' :: b) = splitOnNl a ++ splitOnNl b := by
  induction a with
  | nil => simp [splitOnNl]
  | cons c cs ih =>
    simp only [List.cons_append, splitOnNl, List.append_eq]
    split
    · rw [ih]; rfl
    · rw [ih]
      rcases hs : splitOnNl cs with _ | ⟨l, ls⟩
      · exact absurd hs (splitOnNl_ne_nil cs)
      · rfl

/-- The boolean prefix test agrees with the prefix relation. -/
theorem leadsWith_iff (p t : Text) : leadsWith p t = true ↔ p <+: t := by
  induction p generalizing t with
  | nil => simp [leadsWith]
  | cons x ps ih =>
    cases t with
    | nil => simp [leadsWith]
    | cons c cs =>
      simp only [leadsWith, Bool.and_eq_true, decide_eq_true_eq, ih,
        List.cons_prefix_cons]

/-- A pattern starts any text it is explicitly prepended to. -/
theorem leadsWith_append (p t : Text) : leadsWith p (p ++ t) = true :=
  (leadsWith_iff p (p ++ t)).mpr ⟨t, rfl⟩

/-- The boolean substring test agrees with the infix relation. -/
theorem containsSub_iff (p t : Text) : containsSub p t = true ↔ p <:+: t := by
  induction t with
  | nil => simp [containsSub, leadsWith_iff]
  | cons c cs ih =>
    simp only [containsSub, Bool.or_eq_true, leadsWith_iff, ih,
      List.infix_cons_iff]

/-- Negative form of `containsSub_iff`. -/
theorem containsSub_eq_false (p t : Text) : containsSub p t = false ↔ ¬ p <:+: t := by
  rw [← containsSub_iff]
  cases containsSub p t <;> simp

/-- Substring freeness restricts to prefixes. -/
theorem containsSub_false_of_leading {p t u : Text} (h : t <+: u)
    (hu : containsSub p u = false) : containsSub p t = false := by
  rw [containsSub_eq_false] at hu ⊢
  exact fun hi => hu (hi.trans h.isInfix)

/-- Freeness of a subpattern forces freeness of every pattern containing
it. -/
theorem containsSub_false_mono {p q t : Text} (hpq : p <:+: q)
    (hp : containsSub p t = false) : containsSub q t = false := by
  rw [containsSub_eq_false] at hp ⊢
  exact fun hi => hp (hpq.trans hi)

/-- When no occurrence of the pattern starts before the explicit one,
`replaceFirst` substitutes exactly there. -/
theorem replaceFirst_at {p : Text} (hp : p ≠ []) (r a b : Text)
    (h : ∀ i, i < a.length → leadsWith p (List.drop i (a ++ p ++ b)) = false) :
    replaceFirst p r (a ++ p ++ b) = a ++ r ++ b := by
  induction a with
  | nil =>
    rcases p with _ | ⟨x, ps⟩
    · exact absurd rfl hp
    · simp only [List.nil_append, List.cons_append, replaceFirst]
      rw [if_pos (by simpa using leadsWith_append (x :: ps) b)]
      simp [List.drop_left']
  | cons c a2 ih =>
    have h0 : leadsWith p (c :: (a2 ++ (p ++ b))) = false := by
      have := h 0 (by simp)
      simpa [List.append_assoc] using this
    show replaceFirst p r (c :: (a2 ++ p ++ b)) = c :: (a2 ++ r ++ b)
    rw [replaceFirst, if_neg (by simp [h0])]
    refine congrArg (c :: ·) (ih (fun i hi => ?_))
    have := h (i + 1) (by simpa using Nat.succ_lt_succ hi)
    simpa using this

/-- A border-free pattern absent from `a` has no occurrence starting
inside `a` in `a ++ p ++ b`. -/
theorem no_early_occurrence {p : Text} (hb : borderFree p) {a : Text}
    (ha : containsSub p a = false) (b : Text) :
    ∀ i, i < a.length → leadsWith p (List.drop i (a ++ p ++ b)) = false := by
  rw [containsSub_eq_false] at ha
  intro i hi
  cases hlw : leadsWith p (List.drop i (a ++ p ++ b)) with
  | false => rfl
  | true =>
    exfalso
    have hdrop : List.drop i (a ++ p ++ b) = List.drop i a ++ (p ++ b) := by
      rw [List.append_assoc, List.drop_append_eq_append_drop,
        Nat.sub_eq_zero_of_le (Nat.le_of_lt hi), List.drop_zero]
    rw [hdrop, leadsWith_iff, List.prefix_iff_eq_take] at hlw
    set s := List.drop i a with hs
    have hslen : s.length = a.length - i := by rw [hs, List.length_drop]
    have hspos : 0 < s.length := by omega
    by_cases hlen : p.length ≤ s.length
    · have h1 : List.take p.length (s ++ (p ++ b)) = List.take p.length s := by
        rw [List.take_append_eq_append_take, Nat.sub_eq_zero_of_le hlen,
          List.take_zero, List.append_nil]
      have hps : p <+: s := by
        rw [List.prefix_iff_eq_take, ← h1]
        exact hlw
      exact ha (List.IsInfix.trans hps.isInfix (List.drop_suffix i a).isInfix)
    · push_neg at hlen
      have h2 : List.take p.length (s ++ (p ++ b))
          = s ++ List.take (p.length - s.length) p := by
        rw [List.take_append_eq_append_take, List.take_of_length_le (Nat.le_of_lt hlen)]
        congr 1
        rw [List.take_append_eq_append_take,
          show p.length - s.length - p.length = 0 by omega,
          List.take_zero, List.append_nil]
      have hpeq : p = s ++ List.take (p.length - s.length) p := hlw.trans h2
      have hdropeq : List.drop s.length p = List.take (p.length - s.length) p := by
        conv_lhs => rw [hpeq]
        rw [List.drop_left]
      exact hb s.length hlen hspos hdropeq.symm

/-- The bracketed marker has no nonempty proper border. -/
theorem mark1_borderFree : borderFree mark1 := by
  unfold borderFree
  decide

/-- One reinsertion step substitutes the block for the leftmost bracketed
marker occurrence when the text before it is marker free. -/
theorem reinsertOne_at {a : Text} (ha : containsSub mark1 a = false) (b s : Text) :
    reinsertOne (a ++ mark1 ++ b) s = a ++ s ++ b := by
  have hocc : containsSub mark1 (a ++ mark1 ++ b) = true := by
    rw [containsSub_iff]
    exact ⟨a, b, by simp⟩
  rw [reinsertOne, if_pos hocc]
  exact replaceFirst_at (by decide) s a b (no_early_occurrence mark1_borderFree ha b)

/-- Interleavings absorb a prepended text. -/
theorem plugged_append (a t : Text) (ps : List (Text × Text)) :
    plugged (a ++ t) ps = a ++ plugged t ps := by
  cases ps with
  | nil => rfl
  | cons q rest =>
    rcases q with ⟨x, u⟩
    simp [plugged, List.append_assoc]

/-- The leading text is a prefix of the interleaving. -/
theorem plugged_leads (t0 : Text) (ps : List (Text × Text)) :
    t0 <+: plugged t0 ps := by
  cases ps with
  | nil => exact List.prefix_refl t0
  | cons q rest =>
    rcases q with ⟨x, u⟩
    exact ⟨x ++ plugged u rest, by simp [plugged, List.append_assoc]⟩

/-- Intact-placeholder reinsertion: when every marker occurrence in the
compressed text is one of the explicit intact occurrences and the fully
substituted result is marker free, the loop substitutes the blocks
positionally in order. -/
theorem reinsert_plugged (ps : List (Text × Text)) (t0 : Text)
    (h : containsSub mark1 (plugged t0 ps) = false) :
    reinsert_code_blocks (plugged t0 (ps.map (fun q => (mark1, q.2))))
      (ps.map Prod.fst) = plugged t0 ps := by
  induction ps generalizing t0 with
  | nil => rfl
  | cons q rest ih =>
    rcases q with ⟨s, t⟩
    have hfree : containsSub mark1 t0 = false :=
      containsSub_false_of_leading (plugged_leads t0 ((s, t) :: rest)) h
    have hstep : reinsertOne (plugged t0 (((s, t) :: rest).map (fun q => (mark1, q.2)))) s
        = plugged (t0 ++ s ++ t) (rest.map (fun q => (mark1, q.2))) := by
      show reinsertOne (t0 ++ mark1 ++ plugged t (rest.map (fun q => (mark1, q.2)))) s
        = plugged (t0 ++ s ++ t) (rest.map (fun q => (mark1, q.2)))
      rw [reinsertOne_at hfree, plugged_append (t0 ++ s) t, List.append_assoc]
    show reinsert_code_blocks (plugged t0 (((s, t) :: rest).map (fun q => (mark1, q.2))))
      (s :: rest.map Prod.fst) = plugged t0 ((s, t) :: rest)
    rw [reinsert_code_blocks, List.foldl_cons, hstep]
    have hrec : containsSub mark1 (plugged (t0 ++ s ++ t) rest) = false := by
      rw [plugged_append (t0 ++ s) t rest]
      simpa [plugged, List.append_assoc] using h
    have := ih (t0 ++ s ++ t) hrec
    rw [reinsert_code_blocks] at this
    rw [this, plugged_append (t0 ++ s) t rest]
    simp [plugged, List.append_assoc]

/-- The starting text is a prefix of the text with tail appends. -/
theorem appendAll_leads (bs : List Text) (t : Text) : t <+: appendAll t bs := by
  induction bs generalizing t with
  | nil => exact List.prefix_refl t
  | cons b rest ih =>
    show t <+: appendAll (t ++ str "\n\n" ++ b) rest
    exact List.IsPrefix.trans ⟨str "\n\n" ++ b, by simp [List.append_assoc]⟩
      (ih (t ++ str "\n\n" ++ b))

/-- The bare marker word occurs inside the bracketed marker. -/
theorem mark3_infix_mark1 : mark3 <:+: mark1 :=
  ⟨str "[", str "]", by decide⟩

/-- The bare marker word occurs inside the spaced bracketed marker. -/
theorem mark3_infix_mark2 : mark3 <:+: mark2 :=
  ⟨str "[ ", str " ]", by decide⟩

/-- When the text contains none of the recognized marker shapes, one
reinsertion step appends the block after a blank line. -/
theorem reinsertOne_none {t : Text} (h3 : containsSub mark3 t = false)
    (h4 : containsSub mark4 t = false) (b : Text) :
    reinsertOne t b = t ++ str "\n\n" ++ b := by
  have h1 : containsSub mark1 t = false := containsSub_false_mono mark3_infix_mark1 h3
  have h2 : containsSub mark2 t = false := containsSub_false_mono mark3_infix_mark2 h3
  rw [reinsertOne, if_neg (by simp [h1]), if_neg (by simp [h2]),
    if_neg (by simp [h3]), if_neg (by simp [h4])]

/-- Fallback phase of the reinsertion loop: with no recognizable marker
anywhere (also after the appends), every remaining block is appended at
the tail in order. -/
theorem reinsert_appendAll (bs : List Text) (t : Text)
    (h3 : containsSub mark3 (appendAll t bs) = false)
    (h4 : containsSub mark4 (appendAll t bs) = false) :
    reinsert_code_blocks t bs = appendAll t bs := by
  induction bs generalizing t with
  | nil => rfl
  | cons b rest ih =>
    have hpre : (t ++ str "\n\n" ++ b) <+: appendAll t (b :: rest) := by
      show (t ++ str "\n\n" ++ b) <+: appendAll (t ++ str "\n\n" ++ b) rest
      exact appendAll_leads rest (t ++ str "\n\n" ++ b)
    have ht3 : containsSub mark3 t = false :=
      containsSub_false_of_leading
        (List.IsPrefix.trans ⟨str "\n\n" ++ b, by simp [List.append_assoc]⟩ hpre) h3
    have ht4 : containsSub mark4 t = false :=
      containsSub_false_of_leading
        (List.IsPrefix.trans ⟨str "\n\n" ++ b, by simp [List.append_assoc]⟩ hpre) h4
    show reinsert_code_blocks (reinsertOne t b) rest = appendAll t (b :: rest)
    rw [reinsertOne_none ht3 ht4 b]
    exact ih (t ++ str "\n\n" ++ b) h3 h4

/-- C2: the claim quantifies over every compression pass that keeps the
placeholder occurrences intact, but it fails when a block body contains
the marker token: with the identity pass on this document, the second
iteration substitutes into the block inserted by the first one, and the
first extracted span does not occur in the final output at all. -/
theorem c2_cex :
    (extract_code_blocks c2Input).2 = [str "```\n[CODEBLOCK]\n```", str "```\nx\n```"] ∧
    containsSub (str "```\n[CODEBLOCK]\n```")
      (reinsert_code_blocks (extract_code_blocks c2Input).1
        (extract_code_blocks c2Input).2) = false := by
  constructor <;> decide

/-- C2 (amended): when the compressed text consists of the intact marker
occurrences separated by arbitrary gap texts, and the fully substituted
result contains no occurrence of the bracketed marker (in particular no
block body and no gap contains or assembles one), the loop substitutes
every block at its own placeholder, in order and byte for byte: the
result is exactly the interleaving of the gaps with the blocks. -/
theorem c2_round_trip (ps : List (Text × Text)) (t0 : Text)
    (h : containsSub mark1 (plugged t0 ps) = false) :
    reinsert_code_blocks (plugged t0 (ps.map (fun q => (mark1, q.2))))
      (ps.map Prod.fst) = plugged t0 ps :=
  reinsert_plugged ps t0 h

/-- C2 witness at a concrete two-block instance. -/
theorem c2_round_trip_witness :
    reinsert_code_blocks
        (plugged (str "head ") [(mark1, str " mid "), (mark1, str " tail")])
        [str "S1", str "S2"]
      = plugged (str "head ") [(str "S1", str " mid "), (str "S2", str " tail")] :=
  c2_round_trip [(str "S1", str " mid "), (str "S2", str " tail")] (str "head ")
    (by decide)

/-- C4: the claim predicts that the leftmost occurrence of any recognized
surface form is replaced, but the code tries the surface forms in a fixed
priority order and here rewrites the later bracketed occurrence, leaving
the earlier bare marker word untouched. -/
theorem c4_cex :
    reinsert_code_blocks (str "CODEBLOCK and [CODEBLOCK]") [str "Z"]
      = str "CODEBLOCK and Z" ∧
    str "CODEBLOCK and Z" ≠ str "Z and [CODEBLOCK]" := by
  constructor <;> decide

/-- C4 (amended): for each block in registry order the loop replaces the
leftmost occurrence of the highest-priority surface form present (the
bracketed marker, even when a lower-priority form occurs earlier, as the
prefix `a` here is only required to be free of the bracketed marker), it
replaces only that occurrence, and the next block is processed by
searching the whole updated text from its beginning again, including the
just inserted block. -/
theorem c4_replacement (a b s : Text) (rest : List Text)
    (ha : containsSub mark1 a = false) :
    reinsert_code_blocks (a ++ mark1 ++ b) (s :: rest)
      = reinsert_code_blocks (a ++ s ++ b) rest := by
  rw [reinsert_code_blocks, List.foldl_cons, reinsertOne_at ha]
  rfl

/-- C4 witness at a concrete instance whose prefix contains the bare
marker word but not the bracketed one. -/
theorem c4_replacement_witness :
    reinsert_code_blocks (str "CODEBLOCK " ++ mark1 ++ str " y") [str "B"]
      = reinsert_code_blocks (str "CODEBLOCK " ++ str "B" ++ str " y") [] :=
  c4_replacement (str "CODEBLOCK ") (str " y") (str "B") [] (by decide)

/-- C5: the claim promises that all blocks reach the output with the
unplaced ones appended at the tail, but it fails when a block body
contains the marker token: here both placeholders are missing, the first
block is appended, and the second iteration then substitutes into that
appended block, so the first span does not occur in the output and only
one append happens instead of two. -/
theorem c5_cex :
    reinsert_code_blocks (str "p") [str "a[CODEBLOCK]b", str "x"] = str "p\n\naxb" ∧
    containsSub (str "a[CODEBLOCK]b")
      (reinsert_code_blocks (str "p") [str "a[CODEBLOCK]b", str "x"]) = false := by
  constructor <;> decide

/-- C5 (amended): when the compressed text keeps the first blocks'
markers intact and the markers of the `tailBlocks` are missing entirely,
and the final reassembled text contains neither the marker word nor the
spelled-out bracket form (in particular no block body does), then every
block still reaches the output: the blocks with surviving markers are
substituted positionally and exactly the remaining ones are appended at
the tail, out of position, in registry order. -/
theorem c5_fallback (ps : List (Text × Text)) (t0 : Text) (tailBlocks : List Text)
    (h3 : containsSub mark3 (appendAll (plugged t0 ps) tailBlocks) = false)
    (h4 : containsSub mark4 (appendAll (plugged t0 ps) tailBlocks) = false) :
    reinsert_code_blocks (plugged t0 (ps.map (fun q => (mark1, q.2))))
        (ps.map Prod.fst ++ tailBlocks)
      = appendAll (plugged t0 ps) tailBlocks := by
  rw [reinsert_code_blocks, List.foldl_append]
  have hpre := appendAll_leads tailBlocks (plugged t0 ps)
  have h3t : containsSub mark3 (plugged t0 ps) = false :=
    containsSub_false_of_leading hpre h3
  have hplug : containsSub mark1 (plugged t0 ps) = false :=
    containsSub_false_mono mark3_infix_mark1 h3t
  have h1 := reinsert_plugged ps t0 hplug
  rw [reinsert_code_blocks] at h1
  rw [h1]
  exact reinsert_appendAll tailBlocks (plugged t0 ps) h3 h4

/-- C5 witness: one marker intact, one marker missing; the second block
is appended at the tail. -/
theorem c5_fallback_witness :
    reinsert_code_blocks (plugged (str "u ") [(mark1, str " v")]) [str "S", str "T"]
      = appendAll (plugged (str "u ") [(str "S", str " v")]) [str "T"] :=
  c5_fallback [(str "S", str " v")] (str "u ") [str "T"] (by decide) (by decide)

/-- When the scanner extracts no span it returns its input lines (plus
any flushed candidate) unchanged. -/
theorem extractLoop_spans_nil (s : Option (Text × List Text)) (ls : List Text)
    (h : (extractLoop s ls).2 = []) :
    (extractLoop s ls).1 = stateLines s ++ ls := by
  induction s, ls using extractLoop.induct with
  | case1 => rfl
  | case2 l => rfl
  | case3 l l1 ls hcond ih =>
    rw [extractLoop, if_pos hcond] at h ⊢
    simpa [stateLines] using ih h
  | case4 l l1 ls hcond o s2 heq ih =>
    rw [extractLoop, if_neg hcond] at h ⊢
    rw [heq] at h ih ⊢
    simp only [stateLines, List.nil_append] at h ih ⊢
    rw [ih h]
  | case5 op acc => simp [extractLoop, stateLines]
  | case6 op acc l ls st rest hclose o s2 heq ih =>
    exfalso
    rw [extractLoop, hclose] at h
    rw [heq] at h
    simp at h
  | case7 op acc l ls hclose ih =>
    rw [extractLoop, hclose] at h ⊢
    have := ih h
    simp only [stateLines] at this ⊢
    rw [this]
    simp

/-- C7: when no span is found the rewritten text equals the input, the
reinsertion loop over an empty registry is the identity, and the pipeline
then outputs the engine's raw result unchanged. -/
theorem c7_no_spans :
    (∀ t : Text, (extract_code_blocks t).2 = [] → (extract_code_blocks t).1 = t) ∧
    (∀ t : Text, reinsert_code_blocks t [] = t) ∧
    (∀ (env : Env) (orig c : Text), env.engineAvailable = true →
      env.inputFile = some orig → (extract_code_blocks orig).2 = [] →
      env.engine (extract_code_blocks orig).1 = some c →
      runPipeline env true = .ok (c, mkStats orig c [] true)) := by
  refine ⟨fun t h => ?_, fun t => rfl, fun env orig c hav hin hsp heng => ?_⟩
  · have h2 : (extractLoop none (splitOnNl t)).2 = [] := h
    have h1 := extractLoop_spans_nil none (splitOnNl t) h2
    show joinNl (extractLoop none (splitOnNl t)).1 = t
    rw [h1]
    simpa [stateLines] using joinNl_splitOnNl t
  · have hrw : pipelineRewritten true orig = (extract_code_blocks orig).1 := rfl
    have hspans : pipelineSpans true orig = [] := by
      simpa [pipelineSpans] using hsp
    rw [runPipeline, if_neg (by simp [hav]), hin]
    simp only [hrw, heng, hspans]
    simp [finalText]

/-- C7 witness: a prose-only document and an identity engine. -/
theorem c7_no_spans_witness :
    (extract_code_blocks (str "hello")).1 = str "hello" ∧
    reinsert_code_blocks (str "hi") [] = str "hi" ∧
    runPipeline ⟨true, some (str "hello"), fun u => some u⟩ true
      = .ok (str "hello", mkStats (str "hello") (str "hello") [] true) :=
  ⟨c7_no_spans.1 (str "hello") (by decide),
   c7_no_spans.2.1 (str "hi"),
   c7_no_spans.2.2 ⟨true, some (str "hello"), fun u => some u⟩ (str "hello")
     (str "hello") rfl rfl (by decide) (by decide)⟩

/-- An opening line is also a possible closing line. -/
theorem closeSplit_isSome_of_open {l : Text} (h : isOpenLine l = true) :
    (closeSplit l).isSome = true := by
  rw [isOpenLine] at h
  simp only [Bool.and_eq_true] at h
  rw [closeSplit]
  simp only [h.1, if_true]
  rfl

/-- A block candidate scanning lines none of which can close is flushed
back unchanged at the end of the input. -/
theorem blockScan_no_close (ls : List Text) (op : Text) :
    ∀ acc : List Text, (∀ l ∈ ls, closeSplit l = none) →
      extractLoop (some (op, acc)) ls = (op :: (acc.reverse ++ ls), []) := by
  induction ls with
  | nil =>
    intro acc _
    simp [extractLoop]
  | cons l ls ih =>
    intro acc h
    rw [extractLoop, h l (by simp)]
    rw [ih (l :: acc) (fun x hx => h x (List.mem_cons_of_mem l hx))]
    simp

/-- Dropping the head line cannot increase the closing-line count. -/
theorem countClose_tail_le (l : Text) (ls : List Text) :
    countClose ls ≤ countClose (l :: ls) := by
  rw [countClose, countClose, List.filter_cons]
  split
  · simp
  · exact Nat.le_refl _

/-- A line list with at most one possible closing line yields no span and
passes through unchanged: every span needs both an opening line (which
could itself close a block) and a distinct closing line strictly below
the line after it. -/
theorem extractLoop_few_close (ls : List Text) :
    countClose ls ≤ 1 → extractLoop none ls = (ls, []) := by
  induction ls with
  | nil => intro _; rfl
  | cons l ls ih =>
    intro h
    cases ls with
    | nil => rfl
    | cons l1 ls2 =>
      by_cases hopen : (isOpenLine l && !startsTicks l1) = true
      · have hl : (closeSplit l).isSome = true :=
          closeSplit_isSome_of_open (by simpa using (Bool.and_eq_true _ _ |>.mp hopen).1)
        have hrest : countClose (l1 :: ls2) = 0 := by
          rw [countClose] at h ⊢
          rw [List.filter_cons, if_pos hl] at h
          simp only [List.length_cons] at h
          omega
        have hnone : ∀ x ∈ l1 :: ls2, closeSplit x = none := by
          intro x hx
          rw [countClose, List.length_eq_zero, List.filter_eq_nil_iff] at hrest
          have := hrest x hx
          exact Option.not_isSome_iff_eq_none.mp (by simpa using this)
        rw [extractLoop, if_pos hopen]
        rw [blockScan_no_close ls2 l [l1]
          (fun x hx => hnone x (List.mem_cons_of_mem l1 hx))]
        simp
      · rw [extractLoop, if_neg hopen]
        rw [ih (Nat.le_trans (countClose_tail_le l (l1 :: ls2)) h)]

/-- C8: a text with at most one possible closing line, in particular one
whose only fence is an unterminated opening fence, yields no span and is
passed through unchanged. -/
theorem c8_unterminated (t : Text) (h : countClose (splitOnNl t) ≤ 1) :
    extract_code_blocks t = (t, []) := by
  show (joinNl (extractLoop none (splitOnNl t)).1, (extractLoop none (splitOnNl t)).2)
    = (t, [])
  rw [extractLoop_few_close (splitOnNl t) h]
  simp [joinNl_splitOnNl]

/-- C8 witness: the unterminated-fence document of the specification. -/
theorem c8_unterminated_witness :
    extract_code_blocks (str "```py\ncode") = (str "```py\ncode", []) :=
  c8_unterminated (str "```py\ncode") (by decide)

/-- Spaces are not dropped past the backticks. -/
theorem dropWhile_sp_ticks_append (r : Text) :
    (ticks ++ r).dropWhile (fun c => c = ' ') = ticks ++ r := by
  have h : ticks = '`' :: '`' :: '`' :: [] := rfl
  rw [h]
  simp only [List.cons_append, List.dropWhile_cons]
  rw [if_neg (by decide)]

/-- Backticks stop the space run that a closing line may start with. -/
theorem takeWhile_sp_ticks_append (r : Text) :
    (ticks ++ r).takeWhile (fun c => c = ' ') = [] := by
  have h : ticks = '`' :: '`' :: '`' :: [] := rfl
  rw [h]
  simp only [List.cons_append, List.takeWhile_cons]
  rw [if_neg (by decide)]

/-- Leading spaces followed by backticks are recognized as a closing
line, consuming the spaces and the three backticks only. -/
theorem closeSplit_spaces {s : Text} (hs : ∀ c ∈ s, c = ' ') (tr : Text) :
    closeSplit (s ++ ticks ++ tr) = some (s ++ ticks, tr) := by
  have hsb : ∀ c ∈ s, (fun c => decide (c = ' ')) c = true := by
    intro c hc
    simp [hs c hc]
  have hd : (s ++ ticks ++ tr).dropWhile (fun c => c = ' ') = ticks ++ tr := by
    rw [List.append_assoc, List.dropWhile_append_of_pos hsb,
      dropWhile_sp_ticks_append]
  have ht : (s ++ ticks ++ tr).takeWhile (fun c => c = ' ') = s := by
    rw [List.append_assoc, List.takeWhile_append_of_pos hsb,
      takeWhile_sp_ticks_append, List.append_nil]
  simp only [closeSplit, hd, ht]
  rw [if_pos (leadsWith_append ticks tr)]
  rw [List.drop_left' (show ticks.length = 3 from rfl)]

/-- Leading spaces, backticks and a well-formed tag are recognized as an
opening line. -/
theorem isOpenLine_spaces {s tag : Text} (hs : ∀ c ∈ s, c = ' ')
    (htag : tag.all goodTagChar = true) : isOpenLine (s ++ ticks ++ tag) = true := by
  have hsb : ∀ c ∈ s, (fun c => decide (c = ' ')) c = true := by
    intro c hc
    simp [hs c hc]
  have hd : (s ++ ticks ++ tag).dropWhile (fun c => c = ' ') = ticks ++ tag := by
    rw [List.append_assoc, List.dropWhile_append_of_pos hsb,
      dropWhile_sp_ticks_append]
  simp only [isOpenLine, hd]
  rw [List.drop_left' (show ticks.length = 3 from rfl)]
  simp [leadsWith_append, htag]

/-- A line no close can start with does not start with backticks in
column zero either. -/
theorem startsTicks_false_of_closeNone {l : Text} (h : closeSplit l = none) :
    startsTicks l = false := by
  cases hlt : leadsWith ticks l with
  | false => exact hlt
  | true =>
    exfalso
    rw [leadsWith_iff] at hlt
    obtain ⟨l2, rfl⟩ := hlt
    simp only [closeSplit, dropWhile_sp_ticks_append,
      leadsWith_append, if_true] at h
    exact Option.noConfusion h

/-- Scanning lines that cannot close only accumulates them as content. -/
theorem blockScan_acc (ls : List Text) (op : Text) :
    ∀ (acc rest : List Text), (∀ l ∈ ls, closeSplit l = none) →
      extractLoop (some (op, acc)) (ls ++ rest)
        = extractLoop (some (op, ls.reverse ++ acc)) rest := by
  induction ls with
  | nil =>
    intro acc rest _
    simp
  | cons l ls ih =>
    intro acc rest h
    show extractLoop (some (op, acc)) (l :: (ls ++ rest)) = _
    rw [extractLoop, h l (by simp)]
    rw [ih (l :: acc) rest (fun x hx => h x (List.mem_cons_of_mem l hx))]
    simp [List.append_assoc]

/-- Newline-terminating concatenation of a nonempty line list. -/
theorem linesNl_eq_joinNl (ls : List Text) (h : ls ≠ []) :
    linesNl ls = joinNl ls ++ '\n' :: [] := by
  induction ls with
  | nil => exact absurd rfl h
  | cons l ls ih =>
    cases ls with
    | nil => simp [linesNl, joinNl]
    | cons l2 ls2 =>
      show l ++ '\n' :: linesNl (l2 :: ls2)
        = (l ++ '\n' :: joinNl (l2 :: ls2)) ++ '\n' :: []
      rw [ih (by simp)]
      simp [List.append_assoc]

/-- C3: the claim promises fences of three or more identical characters
and closing lines that are exactly a close fence; but a four-backtick
opening is not recognized at all, since after the three matched backticks
only tag characters may follow on the line. -/
theorem c3_cex :
    extract_code_blocks (str "````\ncode\n````") = (str "````\ncode\n````", []) := by
  decide

/-- C3 (amended): a span begins at a line of optional spaces, exactly
three backticks and a tag of lowercase letters and spaces running to the
end of the line, such that the next line does not start with three
backticks in column zero; it ends at the earliest line at least two lines
below whose content after optional spaces starts with three backticks
(none of the body lines does here), and the match consumes only the
spaces and three backticks of that closing line, leaving any trailing
text on it in the rewritten prose. -/
theorem c3_matching (s1 tag body s2 trail : Text)
    (hs1 : ∀ c ∈ s1, c = ' ') (hs2 : ∀ c ∈ s2, c = ' ')
    (htag : tag.all goodTagChar = true) (htagnl : '\n' ∉ tag)
    (hbody : ∀ l ∈ splitOnNl body, closeSplit l = none)
    (htr : '\n' ∉ trail) :
    extract_code_blocks
        (s1 ++ ticks ++ tag ++ '\n' :: (body ++ '\n' :: (s2 ++ ticks ++ trail)))
      = (codeMarker ++ trail,
         [s1 ++ ticks ++ tag ++ '\n' :: (body ++ '\n' :: (s2 ++ ticks))]) := by
  have hnlA : '\n' ∉ s1 ++ ticks ++ tag := by
    simp only [List.mem_append, not_or]
    refine ⟨⟨fun h => ?_, by decide⟩, htagnl⟩
    have := hs1 '\n' h
    exact absurd this (by decide)
  have hnlC : '\n' ∉ s2 ++ ticks ++ trail := by
    simp only [List.mem_append, not_or]
    refine ⟨⟨fun h => ?_, by decide⟩, htr⟩
    have := hs2 '\n' h
    exact absurd this (by decide)
  rcases hsplit : splitOnNl body with _ | ⟨b0, brest⟩
  · exact absurd hsplit (splitOnNl_ne_nil body)
  have hlines :
      splitOnNl (s1 ++ ticks ++ tag ++ '\n' :: (body ++ '\n' :: (s2 ++ ticks ++ trail)))
        = (s1 ++ ticks ++ tag) :: b0 :: (brest ++ [s2 ++ ticks ++ trail]) := by
    rw [splitOnNl_append_nl, splitOnNl_append_nl, splitOnNl_no_nl _ hnlA,
      splitOnNl_no_nl _ hnlC, hsplit]
    rfl
  have hb0 : closeSplit b0 = none := hbody b0 (by rw [hsplit]; simp)
  have hbrest : ∀ l ∈ brest, closeSplit l = none := fun l hl =>
    hbody l (by rw [hsplit]; simp [hl])
  have hcond : (isOpenLine (s1 ++ ticks ++ tag) && !startsTicks b0) = true := by
    rw [isOpenLine_spaces hs1 htag, startsTicks_false_of_closeNone hb0]
    rfl
  have hloop :
      extractLoop none
          ((s1 ++ ticks ++ tag) :: b0 :: (brest ++ [s2 ++ ticks ++ trail]))
        = ([codeMarker ++ trail],
           [s1 ++ ticks ++ tag ++ '\n' :: (body ++ '\n' :: (s2 ++ ticks))]) := by
    rw [extractLoop, if_pos hcond,
      blockScan_acc brest (s1 ++ ticks ++ tag) [b0] [s2 ++ ticks ++ trail] hbrest,
      extractLoop, closeSplit_spaces hs2 trail]
    have hrev : (brest.reverse ++ [b0]).reverse = b0 :: brest := by
      simp
    rw [hrev]
    have hlin : linesNl (b0 :: brest) = body ++ '\n' :: [] := by
      rw [linesNl_eq_joinNl (b0 :: brest) (by simp), ← hsplit, joinNl_splitOnNl]
    rw [hlin]
    show ([codeMarker ++ trail] , [(s1 ++ ticks ++ tag)
        ++ '\n' :: ((body ++ '\n' :: []) ++ (s2 ++ ticks))]) = _
    simp [List.append_assoc]
  show (joinNl (extractLoop none _).1, (extractLoop none _).2) = _
  rw [hlines, hloop]
  rfl

/-- C3 witness: indented fences, a tag, a body line and trailing text on
the closing line. -/
theorem c3_matching_witness :
    extract_code_blocks (str " ```py\nbody\n  ```tail")
      = (str " [CODEBLOCK] tail", [str " ```py\nbody\n  ```"]) :=
  c3_matching (str " ") (str "py") (str "body") (str "  ") (str "tail")
    (by decide) (by decide) (by decide) (by decide) (by decide) (by decide)

/-- C9: an opening fence whose tag contains any character outside
lowercase letters and space is not recognized, the document yields no
span and passes through unchanged. -/
theorem c9_bad_tag (tag : Text) (hbad : tag.all goodTagChar = false)
    (hnl : '\n' ∉ tag) :
    extract_code_blocks (ticks ++ tag ++ '\n' :: (str "code" ++ '\n' :: ticks))
      = (ticks ++ tag ++ '\n' :: (str "code" ++ '\n' :: ticks), []) := by
  have hnlA : '\n' ∉ ticks ++ tag := by
    simp only [List.mem_append, not_or]
    exact ⟨by decide, hnl⟩
  have hlines : splitOnNl (ticks ++ tag ++ '\n' :: (str "code" ++ '\n' :: ticks))
      = (ticks ++ tag) :: str "code" :: ticks :: [] := by
    rw [splitOnNl_append_nl, splitOnNl_no_nl _ hnlA]
    rfl
  have hopenA : isOpenLine (ticks ++ tag) = false := by
    simp only [isOpenLine, dropWhile_sp_ticks_append,
      List.drop_left' (show ticks.length = 3 from rfl), hbad]
    simp
  have hrest : extractLoop none (str "code" :: ticks :: []) = ([str "code", ticks], []) := by
    decide
  show (joinNl (extractLoop none _).1, (extractLoop none _).2) = _
  rw [hlines, extractLoop, if_neg (by simp [hopenA]), hrest]
  simp [joinNl]

/-- C9 witness: the tag `python3` contains a digit and the block is left
in the prose. -/
theorem c9_bad_tag_witness :
    extract_code_blocks (str "```python3\ncode\n```")
      = (str "```python3\ncode\n```", []) :=
  c9_bad_tag (str "python3") (by decide) (by decide)

/-- Inversion of a successful pipeline run: every stage succeeded and
the output is the reinserted final text with its statistics. -/
theorem runPipeline_ok_inv {env : Env} {p : Bool} {out : Text} {st : Stats}
    (h : runPipeline env p = .ok (out, st)) :
    env.engineAvailable = true ∧
    ∃ orig, env.inputFile = some orig ∧
      ∃ c, env.engine (pipelineRewritten p orig) = some c ∧
        out = finalText p c (pipelineSpans p orig) ∧
        st = mkStats orig out (pipelineSpans p orig) p := by
  obtain ⟨av, inf, eng⟩ := env
  rw [runPipeline] at h
  by_cases hav : av = false
  · rw [if_pos hav] at h
    exact absurd h (by simp)
  · rw [if_neg hav] at h
    have hav2 : av = true := by
      cases av
      · exact absurd rfl hav
      · rfl
    refine ⟨hav2, ?_⟩
    cases inf with
    | none => simp at h
    | some orig =>
      refine ⟨orig, rfl, ?_⟩
      simp only at h
      generalize heng : eng (pipelineRewritten p orig) = r at h
      cases r with
      | none => exact absurd h (by simp)
      | some c =>
        simp only at h
        simp only [Except.ok.injEq, Prod.mk.injEq] at h
        exact ⟨c, heng, h.1.symm, by rw [← h.2, ← h.1]⟩

/-- C6: each fatal stage aborts the pipeline with the corresponding
error and produces no output value, and an output value exists only when
the engine is available, the input file exists and the engine succeeded,
the output then being the final reinserted text. -/
theorem c6_abort (env : Env) (p : Bool) :
    (env.engineAvailable = false → runPipeline env p = .error .engineUnavailable) ∧
    (env.engineAvailable = true → env.inputFile = none →
      runPipeline env p = .error .inputNotFound) ∧
    (∀ orig, env.engineAvailable = true → env.inputFile = some orig →
      env.engine (pipelineRewritten p orig) = none →
      runPipeline env p = .error .engineFailure) ∧
    (∀ out st, runPipeline env p = .ok (out, st) →
      env.engineAvailable = true ∧
      ∃ orig, env.inputFile = some orig ∧
        ∃ c, env.engine (pipelineRewritten p orig) = some c ∧
          out = finalText p c (pipelineSpans p orig)) := by
  refine ⟨fun hav => ?_, fun hav hin => ?_, fun orig hav hin heng => ?_,
    fun out st hok => ?_⟩
  · rw [runPipeline, if_pos hav]
  · rw [runPipeline, if_neg (by simp [hav]), hin]
  · rw [runPipeline, if_neg (by simp [hav])]
    simp only [hin, heng]
  · obtain ⟨hav, orig, hin, c, heng, hout, hst⟩ := runPipeline_ok_inv hok
    exact ⟨hav, orig, hin, c, heng, hout⟩

/-- C6 witness: with the engine unavailable the pipeline aborts and no
output value exists. -/
theorem c6_abort_witness :
    runPipeline ⟨false, none, fun _ => none⟩ true = .error .engineUnavailable :=
  (c6_abort ⟨false, none, fun _ => none⟩ true).1 rfl

/-- C10: for every successful run the overall compression statistic is
defined (never a division failure); it equals original length over final
length when the final text is nonempty and is reported as zero when the
final text is empty. -/
theorem c10_stat_guard (env : Env) (p : Bool) (out : Text) (st : Stats)
    (h : runPipeline env p = .ok (out, st)) :
    (st.overallCompression).isSome = true ∧
    (0 < out.length →
      st.overallCompression
        = some ((st.originalLength : Rat) / (out.length : Rat))) ∧
    (out.length = 0 → st.overallCompression = some 0) := by
  obtain ⟨hav, orig, hin, c, heng, hout, hst⟩ := runPipeline_ok_inv h
  subst hst
  simp only [mkStats]
  refine ⟨?_, fun hpos => ?_, fun hzero => ?_⟩
  · rw [compressionStat]
    split
    · rw [pyDivQ, if_neg (by omega)]
      rfl
    · rfl
  · rw [compressionStat, if_pos hpos, pyDivQ, if_neg (by omega)]
  · rw [compressionStat, if_neg (by omega)]

/-- C10 witness: identity engine on a two-character prose input. -/
theorem c10_stat_guard_witness :
    ((mkStats (str "hi") (str "hi") [] false).overallCompression).isSome = true ∧
    (0 < (str "hi" : Text).length →
      (mkStats (str "hi") (str "hi") [] false).overallCompression
        = some (((mkStats (str "hi") (str "hi") [] false).originalLength : Rat)
            / (((str "hi" : Text).length : Nat) : Rat))) ∧
    ((str "hi" : Text).length = 0 →
      (mkStats (str "hi") (str "hi") [] false).overallCompression = some 0) :=
  c10_stat_guard ⟨true, some (str "hi"), fun u => some u⟩ false (str "hi")
    (mkStats (str "hi") (str "hi") [] false) rfl
